import Mathlib

/-!
# The job manager of certmagic (`async.go`)

A shallow embedding of `jobManager.Submit` and `jobManager.worker`, and a
transition system whose steps are the critical sections of that code.

* The mutex `jm.mu` is modelled by atomicity: every block of code that runs
  between `jm.mu.Lock()` and `jm.mu.Unlock()` is one function on `jobManager`.
* A job body (`func() error`) is opaque to the manager.  It is identified by a
  number, and what it does when called (return `nil`, return an error, panic)
  is chosen by the environment, as an action of the transition system.
* Go `int` is modelled by `Int` with explicit wrap-around (`wrapInt`).
* `worker` is also given as a function, the loop run while no other goroutine
  touches the manager, bounded by the number of entries into the head of the loop.
* `ErrNoRetry` is modelled with the interface `error` as an inductive type of
  non-nil values; a failing method call (nil dereference) is the result `none`.
-/

namespace Certmagic

/-! ## Data model -/

/-- Two's complement wrap-around of a 64-bit Go `int`. -/
def wrapInt (x : Int) : Int :=
  (x + 9223372036854775808) % 18446744073709551616 - 9223372036854775808

/-- The struct `namedJob`: `job` identifies the closure `func() error`,
`logger` is the `*zap.Logger` (`none` is the nil pointer). -/
structure namedJob where
  name : String
  job : Nat
  logger : Option Nat
deriving DecidableEq, Repr

/-- The struct `jobManager` without its mutex.  `names` is the key set of the
map `map[string]struct{}`; `none` is the nil map. -/
structure jobManager where
  maxConcurrentJobs : Int
  activeWorkers : Int
  queue : List namedJob
  names : Option (List String)
deriving DecidableEq, Repr

/-- The keys of `jm.names`; a nil map has no keys. -/
def jobManager.nameSet (jm : jobManager) : List String :=
  jm.names.getD []

/-- The lookup `_, ok := jm.names[name]` (reading a nil map finds nothing). -/
def jobManager.reserved (jm : jobManager) (name : String) : Bool :=
  decide (name ∈ jm.nameSet)

/-- Lines 34-36 of `Submit`: `if jm.names == nil { jm.names = make(...) }`. -/
def jobManager.makeNames (jm : jobManager) : jobManager :=
  match jm.names with
  | none => { jm with names := some [] }
  | some _ => jm

/-- The map write `jm.names[name] = struct{}{}` on a non-nil map. -/
def jobManager.reserve (jm : jobManager) (name : String) : jobManager :=
  { jm with names := some (List.insert name jm.nameSet) }

/-- The builtin `delete(jm.names, name)`; deleting from a nil map does nothing. -/
def jobManager.deleteName (jm : jobManager) (name : String) : jobManager :=
  { jm with names := jm.names.map (fun m => m.filter (fun k => k ≠ name)) }

/-! ## `Submit` -/

/-- The method `jobManager.Submit` (lines 31-49), one critical section.  The
result is the manager after the call and whether `go jm.worker()` ran. -/
def Submit (jm : jobManager) (logger : Option Nat) (name : String) (job : Nat) :
    jobManager × Bool :=
  let jm1 := jm.makeNames
  if name ≠ "" ∧ jm1.reserved name = true then
    (jm1, false)
  else
    let jm2 := if name ≠ "" then jm1.reserve name else jm1
    let jm3 := { jm2 with queue := jm2.queue ++ [namedJob.mk name job logger] }
    if jm3.activeWorkers < jm3.maxConcurrentJobs then
      ({ jm3 with activeWorkers := wrapInt (jm3.activeWorkers + 1) }, true)
    else
      (jm3, false)

/-! ## `worker` -/

/-- Lines 61-69 of `worker`, the critical section at the head of the loop.
With an empty queue the counter is decremented and the worker returns
(`none`); otherwise the head of the queue is popped (`some next`). -/
def worker.loopHead (jm : jobManager) : jobManager × Option namedJob :=
  match jm.queue with
  | [] => ({ jm with activeWorkers := wrapInt (jm.activeWorkers - 1) }, none)
  | next :: rest => ({ jm with queue := rest }, some next)

/-- Lines 70-74 of `worker`: the calls of `next.logger.Error("job failed", ...)`
made after the body returned `err` (`none` is the nil error).  Each call is
recorded as the logger and the error it was given. -/
def worker.logFailure (next : namedJob) (err : Option String) : List (Nat × String) :=
  match err with
  | some e =>
    match next.logger with
    | some l => [(l, e)]
    | none => []
  | none => []

/-- Lines 75-79 of `worker`: the name of a named job is deleted under the lock. -/
def worker.release (jm : jobManager) (next : namedJob) : jobManager :=
  if next.name ≠ "" then jm.deleteName next.name else jm

/-! ## The transition system -/

/-- Where a goroutine started by `go jm.worker()` stands. -/
inductive workerState where
  /-- About to enter the critical section at the head of the loop. -/
  | atLoopHead
  /-- Holds `next`, from the pop until the end of the iteration. -/
  | executing (next : namedJob)
  /-- Left the loop through the `return` of line 65. -/
  | returned
  /-- The body of `next` panicked; the deferred function recovered and the
  goroutine ended, leaving the loop at line 70. -/
  | panicked (next : namedJob)
deriving DecidableEq, Repr

/-- The manager, its worker goroutines and the history of the run.
`accepted`, `popped`, `finished` are ghost fields; `logged` lists the calls
made on loggers. -/
structure System where
  jm : jobManager
  workers : List workerState
  accepted : List namedJob
  popped : List namedJob
  finished : List namedJob
  logged : List (Nat × String)
deriving DecidableEq, Repr

/-- The steps of the system. -/
inductive Action where
  /-- A call `jm.Submit(logger, name, job)`. -/
  | submit (logger : Option Nat) (name : String) (job : Nat)
  /-- Worker `w` runs the head of its loop: a pop, or the exit. -/
  | loopHead (w : Nat)
  /-- The body run by worker `w` returns `err`; the worker ends the iteration. -/
  | jobReturn (w : Nat) (err : Option String)
  /-- The body run by worker `w` panics. -/
  | jobPanic (w : Nat)
deriving DecidableEq, Repr

/-- One step; `none` when the action is not enabled. -/
def step (s : System) : Action → Option System
  | .submit logger name job =>
    let r := Submit s.jm logger name job
    some { s with
      jm := r.1
      workers := if r.2 then s.workers ++ [workerState.atLoopHead] else s.workers
      accepted :=
        if name ≠ "" ∧ s.jm.reserved name = true then s.accepted
        else s.accepted ++ [namedJob.mk name job logger] }
  | .loopHead w =>
    match s.workers[w]? with
    | some .atLoopHead =>
      match worker.loopHead s.jm with
      | (jm1, none) => some { s with jm := jm1, workers := s.workers.set w .returned }
      | (jm1, some next) =>
        some { s with
          jm := jm1
          workers := s.workers.set w (.executing next)
          popped := s.popped ++ [next] }
    | _ => none
  | .jobReturn w err =>
    match s.workers[w]? with
    | some (.executing next) =>
      some { s with
        jm := worker.release s.jm next
        workers := s.workers.set w .atLoopHead
        finished := s.finished ++ [next]
        logged := s.logged ++ worker.logFailure next err }
    | _ => none
  | .jobPanic w =>
    match s.workers[w]? with
    | some (.executing next) =>
      some { s with
        workers := s.workers.set w (.panicked next)
        finished := s.finished ++ [next] }
    | _ => none

/-- Runs a list of actions, failing when one of them is not enabled. -/
def run (s : System) : List Action → Option System
  | [] => some s
  | a :: as => (step s a).bind (fun s1 => run s1 as)

/-- The initial state: empty queue, nil name map, no worker. -/
def init (N : Int) : System :=
  { jm := { maxConcurrentJobs := N, activeWorkers := 0, queue := [], names := none }
    workers := [], accepted := [], popped := [], finished := [], logged := [] }

/-- The states the manager can be in after some interleaving of steps. -/
def Reachable (N : Int) (s : System) : Prop :=
  ∃ acts : List Action, run (init N) acts = some s

/-- A worker loop that has started and has not ended. -/
def workerState.isRunning : workerState → Bool
  | .atLoopHead => true
  | .executing _ => true
  | .returned => false
  | .panicked _ => false

/-- A worker loop ended by a panic of a job body. -/
def workerState.hasPanicked : workerState → Bool
  | .panicked _ => true
  | _ => false

/-- The number of running worker loops. -/
def runningWorkers (ws : List workerState) : Nat := ws.countP workerState.isRunning

/-- The number of worker loops ended by a panic. -/
def panickedWorkers (ws : List workerState) : Nat := ws.countP workerState.hasPanicked

/-- The jobs being executed by workers. -/
def execJobs (ws : List workerState) : List namedJob :=
  ws.filterMap (fun st => match st with
    | .executing j => some j
    | _ => none)

/-- The number of queued jobs named `n`. -/
def queuedNamed (n : String) (q : List namedJob) : Nat :=
  q.countP (fun j => decide (j.name = n))

/-- The worker is executing a job named `n`. -/
def workerState.runs (n : String) : workerState → Bool
  | .executing j => decide (j.name = n)
  | _ => false

/-- The worker ended by a panic of a job named `n`. -/
def workerState.lost (n : String) : workerState → Bool
  | .panicked j => decide (j.name = n)
  | _ => false

/-- The invariant of the reachable states. -/
structure Inv (N : Int) (s : System) : Prop where
  max : s.jm.maxConcurrentJobs = N
  count : s.jm.activeWorkers = (runningWorkers s.workers : Int) + (panickedWorkers s.workers : Int)
  bound : s.jm.activeWorkers ≤ N
  fifo : s.popped ++ s.jm.queue = s.accepted
  noEmpty : "" ∉ s.jm.nameSet
  names : ∀ n : String, n ≠ "" →
    queuedNamed n s.jm.queue + s.workers.countP (workerState.runs n)
      + s.workers.countP (workerState.lost n) = if n ∈ s.jm.nameSet then 1 else 0

/-- The jobs whose execution has ended, followed by the jobs in execution, are the
popped jobs, in the order of the pops. -/
def Sequential (s : System) : Prop :=
  s.finished ++ execJobs s.workers = s.popped

/-! ## Example states -/

/-- The state after `Submit(nil, "renew:example.com", bodyA)` on a fresh manager with
`maxConcurrentJobs = 1000`: job 0 stands for `bodyA`. -/
def renewSubmitted : System :=
  { jm := { maxConcurrentJobs := 1000, activeWorkers := 1,
            queue := [namedJob.mk "renew:example.com" 0 none],
            names := some ["renew:example.com"] }
    workers := [workerState.atLoopHead]
    accepted := [namedJob.mk "renew:example.com" 0 none]
    popped := [], finished := [], logged := [] }

/-- Three anonymous jobs submitted with `maxConcurrentJobs = 2`; both workers have
popped a job. -/
def twoBusy : System :=
  { jm := { maxConcurrentJobs := 2, activeWorkers := 2,
            queue := [namedJob.mk "" 2 none], names := some [] }
    workers := [workerState.executing (namedJob.mk "" 0 none),
                workerState.executing (namedJob.mk "" 1 none)]
    accepted := [namedJob.mk "" 0 none, namedJob.mk "" 1 none, namedJob.mk "" 2 none]
    popped := [namedJob.mk "" 0 none, namedJob.mk "" 1 none]
    finished := [], logged := [] }

/-- With `maxConcurrentJobs = 1`: named job `a` ran and returned an error, the
anonymous job 1 is in execution, a duplicate of `a` (job 2) was dropped while `a` was
queued, and `a` was submitted again (job 3) after its first run. -/
def oneWorkerBusy : System :=
  { jm := { maxConcurrentJobs := 1, activeWorkers := 1,
            queue := [namedJob.mk "a" 3 none], names := some ["a"] }
    workers := [workerState.executing (namedJob.mk "" 1 (some 7))]
    accepted := [namedJob.mk "a" 0 none, namedJob.mk "" 1 (some 7), namedJob.mk "a" 3 none]
    popped := [namedJob.mk "a" 0 none, namedJob.mk "" 1 (some 7)]
    finished := [namedJob.mk "a" 0 none]
    logged := [] }

/-- With `maxConcurrentJobs = 1`: job `a` was submitted and popped, and its body is
running. -/
def namedRunning : System :=
  { jm := { maxConcurrentJobs := 1, activeWorkers := 1, queue := [], names := some ["a"] }
    workers := [workerState.executing (namedJob.mk "a" 0 none)]
    accepted := [namedJob.mk "a" 0 none]
    popped := [namedJob.mk "a" 0 none]
    finished := []
    logged := [] }

/-- With `maxConcurrentJobs = 1`: job `a` was submitted and popped, and its body
panicked. -/
def afterPanic : System :=
  { jm := { maxConcurrentJobs := 1, activeWorkers := 1, queue := [], names := some ["a"] }
    workers := [workerState.panicked (namedJob.mk "a" 0 none)]
    accepted := [namedJob.mk "a" 0 none]
    popped := [namedJob.mk "a" 0 none]
    finished := [namedJob.mk "a" 0 none]
    logged := [] }

/-- With `maxConcurrentJobs = 1`: the anonymous job 0 (A) was submitted and popped, its
body panicked, and then the anonymous job 1 (B) was submitted. -/
def panicThenSubmit : System :=
  { jm := { maxConcurrentJobs := 1, activeWorkers := 1,
            queue := [namedJob.mk "" 1 none], names := some [] }
    workers := [workerState.panicked (namedJob.mk "" 0 none)]
    accepted := [namedJob.mk "" 0 none, namedJob.mk "" 1 none]
    popped := [namedJob.mk "" 0 none]
    finished := [namedJob.mk "" 0 none]
    logged := [] }

/-- No worker loop is running, the counter leaves no room for a new one, and job `b`
waits in the queue. -/
def Starved (b : namedJob) (s : System) : Prop :=
  runningWorkers s.workers = 0 ∧ s.jm.maxConcurrentJobs ≤ s.jm.activeWorkers
    ∧ b ∈ s.jm.queue

/-! ## The worker loop run alone -/

/-- What a call `next.job()` does: it returns an error value (`none` is `nil`), or it
panics. -/
inductive bodyResult where
  | returns (err : Option String)
  | panics
deriving DecidableEq, Repr

/-- The outcome of a call of `worker`: the manager it leaves, the jobs whose body it
called, the calls it made on loggers, and whether it ended in the deferred recover. -/
structure workerRun where
  jm : jobManager
  executed : List namedJob
  logged : List (Nat × String)
  panicked : Bool
deriving DecidableEq, Repr

/-- The function `worker` (lines 51-81) run while no other goroutine touches the
manager.  `body k` is what the body called in iteration `k` does.  The first argument
bounds the number of times the head of the loop is entered; `none` means that the
bound was reached before the loop ended. -/
def worker (body : Nat → bodyResult) : Nat → Nat → jobManager → Option workerRun
  | 0, _, _ => none
  | fuel + 1, k, jm =>
    match worker.loopHead jm with
    | (jm1, none) => some { jm := jm1, executed := [], logged := [], panicked := false }
    | (jm1, some next) =>
      match body k with
      | .panics => some { jm := jm1, executed := [next], logged := [], panicked := true }
      | .returns err =>
        match worker body fuel (k + 1) (worker.release jm1 next) with
        | none => none
        | some r =>
          some { r with
            executed := next :: r.executed
            logged := worker.logFailure next err ++ r.logged }

/-- A manager with one worker counted and two queued jobs: the named job `a` and an
anonymous job. -/
def twoQueued : jobManager :=
  { maxConcurrentJobs := 2, activeWorkers := 1,
    queue := [namedJob.mk "a" 0 none, namedJob.mk "" 1 (some 7)],
    names := some ["a"] }

/-- The first body called returns the error `boom`, every later one returns `nil`. -/
def firstFails (k : Nat) : bodyResult :=
  bodyResult.returns (if k = 0 then some "boom" else none)

/-! ## `ErrNoRetry` -/

/-- A non-nil value of the Go interface `error`.  Its dynamic type is either
`ErrNoRetry` (with a nil or a non-nil `Err` field) or some other error type, of which
only the string returned by its `Error()` method matters here. -/
inductive goError where
  | other (msg : String)
  | noRetryNil
  | noRetry (Err : goError)
deriving DecidableEq, Repr

/-- The method call `e.Error()` on a non-nil interface value; `none` is a panic
(nil dereference).  On the dynamic type `ErrNoRetry` it runs line 89. -/
def goError.Error : goError → Option String
  | .other msg => some msg
  | .noRetryNil => none
  | .noRetry e => e.Error

/-- The struct `ErrNoRetry`; `Err` is an interface value, `none` is nil. -/
structure ErrNoRetry where
  Err : Option goError
deriving DecidableEq, Repr

/-- An `ErrNoRetry` stored in a variable of type `error`. -/
def ErrNoRetry.toError (e : ErrNoRetry) : goError :=
  match e.Err with
  | none => goError.noRetryNil
  | some x => goError.noRetry x

/-- Line 88: `func (e ErrNoRetry) Unwrap() error { return e.Err }`. -/
def ErrNoRetry.Unwrap (e : ErrNoRetry) : Option goError := e.Err

/-- Line 89: `func (e ErrNoRetry) Error() string { return e.Err.Error() }`; `none` is
the panic of a method call on a nil interface value. -/
def ErrNoRetry.Error (e : ErrNoRetry) : Option String :=
  match e.Err with
  | none => none
  | some x => x.Error

/-! ## Lemmas on lists and on the manager -/

theorem countP_set_add {α : Type} (p : α → Bool) (x : α) :
    ∀ (ws : List α) (w : Nat) (old : α), ws[w]? = some old →
      (ws.set w x).countP p + (if p old then 1 else 0)
        = ws.countP p + (if p x then 1 else 0) := by
  intro ws
  induction ws with
  | nil => intro w old h; simp at h
  | cons a t ih =>
    intro w old h
    cases w with
    | zero =>
      simp at h
      subst h
      simp [List.countP_cons]
      omega
    | succ k =>
      simp at h
      have := ih k old h
      simp [List.countP_cons]
      omega

theorem wrapInt_eq (x : Int) (h1 : -9223372036854775808 ≤ x) (h2 : x < 9223372036854775808) :
    wrapInt x = x := by
  unfold wrapInt
  omega

theorem nameSet_makeNames (jm : jobManager) : jm.makeNames.nameSet = jm.nameSet := by
  unfold jobManager.makeNames jobManager.nameSet
  cases h : jm.names <;> simp [h]

theorem makeNames_of_mem (jm : jobManager) (n : String) (h : n ∈ jm.nameSet) :
    jm.makeNames = jm := by
  unfold jobManager.makeNames
  unfold jobManager.nameSet at h
  cases h1 : jm.names with
  | none => simp [h1] at h
  | some m => rfl

theorem Submit_dup (jm : jobManager) (logger : Option Nat) (name : String) (job : Nat)
    (h1 : name ≠ "") (h2 : name ∈ jm.nameSet) :
    Submit jm logger name job = (jm, false) := by
  unfold Submit
  simp [jobManager.reserved, nameSet_makeNames, h1, h2, makeNames_of_mem jm name h2]

theorem Submit_accept (jm : jobManager) (logger : Option Nat) (name : String) (job : Nat)
    (h : ¬ (name ≠ "" ∧ name ∈ jm.nameSet)) :
    (Submit jm logger name job).1.queue = jm.queue ++ [namedJob.mk name job logger]
    ∧ (Submit jm logger name job).1.nameSet
        = (if name ≠ "" then name :: jm.nameSet else jm.nameSet)
    ∧ (Submit jm logger name job).1.maxConcurrentJobs = jm.maxConcurrentJobs
    ∧ (Submit jm logger name job).1.activeWorkers
        = (if jm.activeWorkers < jm.maxConcurrentJobs then wrapInt (jm.activeWorkers + 1)
           else jm.activeWorkers)
    ∧ (Submit jm logger name job).2 = decide (jm.activeWorkers < jm.maxConcurrentJobs) := by
  obtain ⟨m, a, q, ns⟩ := jm
  by_cases h1 : name = ""
  · subst h1
    by_cases h2 : a < m <;> cases ns <;>
      simp [Submit, jobManager.makeNames, jobManager.nameSet, h2]
  · cases ns with
    | none =>
      by_cases h2 : a < m <;>
        simp [Submit, jobManager.makeNames, jobManager.nameSet, jobManager.reserved,
          jobManager.reserve, h1, h2]
    | some v =>
      have h3 : name ∉ v := fun hc => h ⟨h1, hc⟩
      by_cases h2 : a < m <;>
        simp [Submit, jobManager.makeNames, jobManager.nameSet, jobManager.reserved,
          jobManager.reserve, h1, h2, h3]

theorem Inv_init (N : Int) (h0 : 0 ≤ N) : Inv N (init N) := by
  constructor <;>
    simp [init, runningWorkers, panickedWorkers, jobManager.nameSet, queuedNamed, h0]

theorem Inv_submit (N : Int) (hN : N < 9223372036854775808) (s s1 : System) (h : Inv N s)
    (logger : Option Nat) (name : String) (job : Nat)
    (hs : step s (.submit logger name job) = some s1) : Inv N s1 := by
  simp only [step, Option.some.injEq] at hs
  subst hs
  by_cases hd : name ≠ "" ∧ name ∈ s.jm.nameSet
  · have e := Submit_dup s.jm logger name job hd.1 hd.2
    have hr : (name ≠ "" ∧ s.jm.reserved name = true) :=
      ⟨hd.1, by simp [jobManager.reserved, hd.2]⟩
    simp only [e, if_pos hr, Bool.false_eq_true, if_false]
    exact ⟨h.max, h.count, h.bound, h.fifo, h.noEmpty, h.names⟩
  · have hr : ¬ (name ≠ "" ∧ s.jm.reserved name = true) := by
      intro hc
      exact hd ⟨hc.1, by simpa [jobManager.reserved] using hc.2⟩
    obtain ⟨eq, en, em, ea, es⟩ := Submit_accept s.jm logger name job hd
    simp only [if_neg hr]
    have hcnt := h.count
    have hbd := h.bound
    have hmax := h.max
    constructor
    · simp only [em]; exact hmax
    · simp only [ea, es]
      by_cases hlt : s.jm.activeWorkers < s.jm.maxConcurrentJobs
      · have hw : wrapInt (s.jm.activeWorkers + 1) = s.jm.activeWorkers + 1 :=
          wrapInt_eq _ (by omega) (by omega)
        simp [hlt, hw, runningWorkers, panickedWorkers, List.countP_append,
          workerState.isRunning, workerState.hasPanicked] at hcnt ⊢
        omega
      · simp [hlt]
        exact hcnt
    · simp only [ea]
      by_cases hlt : s.jm.activeWorkers < s.jm.maxConcurrentJobs
      · have hw : wrapInt (s.jm.activeWorkers + 1) = s.jm.activeWorkers + 1 :=
          wrapInt_eq _ (by omega) (by omega)
        simp only [if_pos hlt, hw]
        omega
      · simp only [if_neg hlt]
        exact hbd
    · simp only [eq]
      rw [← List.append_assoc, h.fifo]
    · simp only [en]
      by_cases h1 : name = ""
      · simp [h1, h.noEmpty]
      · simp [h1, h.noEmpty]
        exact fun hc => h1 hc.symm
    · intro n hn
      have hnm := h.names n hn
      simp only [en, eq]
      have hws : ∀ p : workerState → Bool, p workerState.atLoopHead = false →
          (if (Submit s.jm logger name job).2 = true then s.workers ++ [workerState.atLoopHead]
            else s.workers).countP p = s.workers.countP p := by
        intro p hp
        split <;> simp [List.countP_append, hp]
      rw [hws _ rfl, hws _ rfl]
      by_cases h1 : name = ""
      · subst h1
        have : ¬ ("" = n) := fun hc => hn hc.symm
        simp [queuedNamed, List.countP_append, this] at hnm ⊢
        exact hnm
      · by_cases h2 : name = n
        · subst h2
          have h3 : name ∉ s.jm.nameSet := fun hc => hd ⟨h1, hc⟩
          rw [if_neg h3] at hnm
          simp only [queuedNamed] at hnm
          simp [queuedNamed, List.countP_append, h1]
          omega
        · have h4 : ¬ (n = name) := fun hc => h2 hc.symm
          simp [queuedNamed, List.countP_append, h1, h2, h4] at hnm ⊢
          exact hnm

theorem release_fields (jm : jobManager) (next : namedJob) :
    (worker.release jm next).queue = jm.queue
    ∧ (worker.release jm next).activeWorkers = jm.activeWorkers
    ∧ (worker.release jm next).maxConcurrentJobs = jm.maxConcurrentJobs
    ∧ (worker.release jm next).nameSet
        = (if next.name ≠ "" then jm.nameSet.filter (fun k => k ≠ next.name)
           else jm.nameSet) := by
  obtain ⟨m, a, q, ns⟩ := jm
  by_cases h1 : next.name = "" <;> cases ns <;>
    simp [worker.release, jobManager.deleteName, jobManager.nameSet, h1]

theorem Inv_loopHead (N : Int) (hN : N < 9223372036854775808) (s s1 : System) (h : Inv N s)
    (w : Nat) (hs : step s (.loopHead w) = some s1) : Inv N s1 := by
  simp only [step] at hs
  cases hw : s.workers[w]? with
  | none => simp [hw] at hs
  | some st =>
    cases st with
    | atLoopHead =>
      simp only [hw] at hs
      have hcnt := h.count
      have hbd := h.bound
      have hrun := countP_set_add workerState.isRunning
      have hpan := countP_set_add workerState.hasPanicked
      cases hq : s.jm.queue with
      | nil =>
        simp only [worker.loopHead, hq, Option.some.injEq] at hs
        subst hs
        have h1 := hrun workerState.returned s.workers w _ hw
        have h2 := hpan workerState.returned s.workers w _ hw
        simp [workerState.isRunning, workerState.hasPanicked] at h1 h2
        have hwr : wrapInt (s.jm.activeWorkers - 1) = s.jm.activeWorkers - 1 :=
          wrapInt_eq _ (by unfold runningWorkers at hcnt; omega) (by omega)
        constructor
        · exact h.max
        · simp only [hwr, runningWorkers, panickedWorkers] at hcnt ⊢
          omega
        · simp only [hwr]
          omega
        · simp only []
          rw [← h.fifo, hq]
        · exact h.noEmpty
        · intro n hn
          have h3 := countP_set_add (workerState.runs n) workerState.returned s.workers w _ hw
          have h4 := countP_set_add (workerState.lost n) workerState.returned s.workers w _ hw
          simp [workerState.runs, workerState.lost] at h3 h4
          have := h.names n hn
          simp only [hq, h3, h4] at this ⊢
          exact this
      | cons next rest =>
        simp only [worker.loopHead, hq, Option.some.injEq] at hs
        subst hs
        have h1 := hrun (workerState.executing next) s.workers w _ hw
        have h2 := hpan (workerState.executing next) s.workers w _ hw
        simp [workerState.isRunning, workerState.hasPanicked] at h1 h2
        constructor
        · exact h.max
        · simp only [runningWorkers, panickedWorkers, h1, h2] at hcnt ⊢
          exact hcnt
        · exact hbd
        · simp only []
          rw [← h.fifo, hq]
          simp
        · exact h.noEmpty
        · intro n hn
          have h3 := countP_set_add (workerState.runs n) (workerState.executing next)
            s.workers w _ hw
          have h4 := countP_set_add (workerState.lost n) (workerState.executing next)
            s.workers w _ hw
          simp only [workerState.runs, workerState.lost] at h3 h4
          have := h.names n hn
          simp only [hq, queuedNamed, List.countP_cons] at this ⊢
          change _ = ite (n ∈ s.jm.nameSet) 1 0
          rw [← this]
          by_cases he : next.name = n
          · simp only [he, decide_True, if_true, Bool.false_eq_true, if_false] at h3 h4 ⊢
            omega
          · simp only [he, decide_False, if_false, Bool.false_eq_true] at h3 h4 ⊢
            omega
    | executing j => simp [hw] at hs
    | returned => simp [hw] at hs
    | panicked j => simp [hw] at hs

theorem Inv_jobPanic (N : Int) (s s1 : System) (h : Inv N s)
    (w : Nat) (hs : step s (.jobPanic w) = some s1) : Inv N s1 := by
  simp only [step] at hs
  cases hw : s.workers[w]? with
  | none => simp [hw] at hs
  | some st =>
    cases st with
    | executing next =>
      simp only [hw, Option.some.injEq] at hs
      subst hs
      have hcnt := h.count
      have h1 := countP_set_add workerState.isRunning (workerState.panicked next)
        s.workers w _ hw
      have h2 := countP_set_add workerState.hasPanicked (workerState.panicked next)
        s.workers w _ hw
      simp [workerState.isRunning, workerState.hasPanicked] at h1 h2
      constructor
      · exact h.max
      · simp only [runningWorkers, panickedWorkers] at hcnt ⊢
        omega
      · exact h.bound
      · exact h.fifo
      · exact h.noEmpty
      · intro n hn
        have h3 := countP_set_add (workerState.runs n) (workerState.panicked next)
          s.workers w _ hw
        have h4 := countP_set_add (workerState.lost n) (workerState.panicked next)
          s.workers w _ hw
        simp only [workerState.runs, workerState.lost] at h3 h4
        have := h.names n hn
        change _ = ite (n ∈ s.jm.nameSet) 1 0
        rw [← this]
        by_cases he : next.name = n
        · simp only [he, decide_True, if_true, Bool.false_eq_true, if_false] at h3 h4 ⊢
          omega
        · simp only [he, decide_False, if_false, Bool.false_eq_true] at h3 h4 ⊢
          omega
    | atLoopHead => simp [hw] at hs
    | returned => simp [hw] at hs
    | panicked j => simp [hw] at hs

theorem Inv_jobReturn (N : Int) (s s1 : System) (h : Inv N s)
    (w : Nat) (err : Option String) (hs : step s (.jobReturn w err) = some s1) :
    Inv N s1 := by
  simp only [step] at hs
  cases hw : s.workers[w]? with
  | none => simp [hw] at hs
  | some st =>
    cases st with
    | executing next =>
      simp only [hw, Option.some.injEq] at hs
      subst hs
      obtain ⟨eq, ea, em, en⟩ := release_fields s.jm next
      have hcnt := h.count
      have h1 := countP_set_add workerState.isRunning workerState.atLoopHead
        s.workers w _ hw
      have h2 := countP_set_add workerState.hasPanicked workerState.atLoopHead
        s.workers w _ hw
      simp [workerState.isRunning, workerState.hasPanicked] at h1 h2
      constructor
      · simp only [em]; exact h.max
      · simp only [ea, runningWorkers, panickedWorkers, h1, h2] at hcnt ⊢
        exact hcnt
      · simp only [ea]; exact h.bound
      · simp only [eq]; exact h.fifo
      · simp only [en]
        have := h.noEmpty
        split
        · intro hc
          exact this (List.mem_of_mem_filter hc)
        · exact this
      · intro n hn
        have h3 := countP_set_add (workerState.runs n) workerState.atLoopHead
          s.workers w _ hw
        have h4 := countP_set_add (workerState.lost n) workerState.atLoopHead
          s.workers w _ hw
        simp only [workerState.runs, workerState.lost] at h3 h4
        have hnm := h.names n hn
        simp only [en, eq]
        by_cases he : next.name = n
        · subst he
          simp only [decide_True, if_true, Bool.false_eq_true, if_false] at h3 h4
          have hmem : next.name ∈ s.jm.nameSet := by
            by_contra hc
            rw [if_neg hc] at hnm
            omega
          rw [if_pos hmem] at hnm
          have hout : next.name ∉ (if next.name ≠ "" then
              s.jm.nameSet.filter (fun k => decide (k ≠ next.name)) else s.jm.nameSet) := by
            simp [hn]
          rw [if_neg hout]
          omega
        · simp only [he, decide_False, if_false, Bool.false_eq_true] at h3 h4 ⊢
          have hne : ¬ (n = next.name) := fun hc => he hc.symm
          have hiff : (n ∈ (if next.name ≠ "" then
              s.jm.nameSet.filter (fun k => decide (k ≠ next.name)) else s.jm.nameSet))
              ↔ n ∈ s.jm.nameSet := by
            split <;> simp [hne]
          simp only [hiff]
          omega
    | atLoopHead => simp [hw] at hs
    | returned => simp [hw] at hs
    | panicked j => simp [hw] at hs

theorem Inv_step (N : Int) (hN : N < 9223372036854775808) (s s1 : System) (h : Inv N s)
    (a : Action) (hs : step s a = some s1) : Inv N s1 := by
  cases a with
  | submit logger name job => exact Inv_submit N hN s s1 h logger name job hs
  | loopHead w => exact Inv_loopHead N hN s s1 h w hs
  | jobReturn w err => exact Inv_jobReturn N s s1 h w err hs
  | jobPanic w => exact Inv_jobPanic N s s1 h w hs

theorem Inv_run (N : Int) (hN : N < 9223372036854775808) (acts : List Action) :
    ∀ s s1 : System, Inv N s → run s acts = some s1 → Inv N s1 := by
  induction acts with
  | nil =>
    intro s s1 h hr
    simp only [run, Option.some.injEq] at hr
    exact hr ▸ h
  | cons a t ih =>
    intro s s1 h hr
    simp only [run] at hr
    cases hst : step s a with
    | none => simp [hst] at hr
    | some s2 =>
      simp only [hst, Option.bind] at hr
      exact ih s2 s1 (Inv_step N hN s s2 h a hst) hr

theorem Inv_of_reachable (N : Int) (h0 : 0 ≤ N) (hN : N < 9223372036854775808)
    (s : System) (hr : Reachable N s) : Inv N s := by
  obtain ⟨acts, ha⟩ := hr
  exact Inv_run N hN acts (init N) s (Inv_init N h0) ha

theorem length_execJobs_le (ws : List workerState) :
    (execJobs ws).length ≤ runningWorkers ws := by
  induction ws with
  | nil => simp [execJobs, runningWorkers]
  | cons a t ih =>
    unfold execJobs runningWorkers at ih ⊢
    cases a <;> simp [List.filterMap_cons, List.countP_cons, workerState.isRunning] <;> omega

theorem execJobs_cons (a : workerState) (t : List workerState) :
    execJobs (a :: t) = execJobs [a] ++ execJobs t := by
  unfold execJobs
  cases a <;> simp [List.filterMap_cons]

theorem execJobs_append (ws vs : List workerState) :
    execJobs (ws ++ vs) = execJobs ws ++ execJobs vs := by
  unfold execJobs
  exact List.filterMap_append ws vs _

theorem execJobs_nil_of_not_running (ws : List workerState)
    (h : runningWorkers ws = 0) : execJobs ws = [] := by
  have := length_execJobs_le ws
  exact List.length_eq_zero.mp (by omega)

theorem execJobs_single_not_running (a : workerState) (h : a.isRunning = false) :
    execJobs [a] = [] := by
  cases a <;> simp_all [execJobs, workerState.isRunning]

/-- With at most one running worker, the jobs in execution are those of that worker,
before and after it changes state. -/
theorem execJobs_of_one_running :
    ∀ (ws : List workerState) (w : Nat) (st : workerState),
      runningWorkers ws ≤ 1 → ws[w]? = some st → st.isRunning = true →
      execJobs ws = execJobs [st] ∧ ∀ x, execJobs (ws.set w x) = execJobs [x] := by
  intro ws
  induction ws with
  | nil => intro w st _ h; simp at h
  | cons a t ih =>
    intro w st h1 hw hst
    have hc : runningWorkers (a :: t)
        = runningWorkers t + (if a.isRunning = true then 1 else 0) := by
      simp [runningWorkers, List.countP_cons]
    cases w with
    | zero =>
      simp at hw
      subst hw
      rw [hc, if_pos hst] at h1
      have ht := execJobs_nil_of_not_running t (by omega)
      constructor
      · rw [execJobs_cons, ht, List.append_nil]
      · intro x
        rw [List.set_cons_zero, execJobs_cons, ht, List.append_nil]
    | succ k =>
      simp at hw
      have hpos : 0 < runningWorkers t :=
        List.countP_pos_iff.mpr ⟨st, List.getElem?_mem hw, hst⟩
      have ha : a.isRunning = false := by
        by_contra hne
        simp only [Bool.not_eq_false] at hne
        rw [hc, if_pos hne] at h1
        omega
      rw [hc] at h1
      simp only [ha, Bool.false_eq_true, if_false, Nat.add_zero] at h1
      obtain ⟨e1, e2⟩ := ih k st h1 hw hst
      have hnil := execJobs_single_not_running a ha
      constructor
      · rw [execJobs_cons, hnil, List.nil_append, e1]
      · intro x
        rw [List.set_cons_succ, execJobs_cons, hnil, List.nil_append, e2 x]

theorem countP_execJobs (n : String) (ws : List workerState) :
    (execJobs ws).countP (fun j => decide (j.name = n)) = ws.countP (workerState.runs n) := by
  induction ws with
  | nil => simp [execJobs]
  | cons a t ih =>
    rw [execJobs_cons, List.countP_append, ih, List.countP_cons]
    cases a <;> simp [execJobs, workerState.runs, List.countP_cons]
    omega

/-! ## Duplicate submissions -/

/-- C1: `Submit` called with a non-empty name that is already in the reserved-name
set is a no-op.  The manager (queue, name set, `activeWorkers`) is returned unchanged
and `go jm.worker()` does not run; as a step of the system it leaves the whole state,
the list of workers included, as it was. -/
theorem Submit_reserved_name_noop (s : System) (logger : Option Nat) (name : String)
    (job : Nat) (h1 : name ≠ "") (h2 : name ∈ s.jm.nameSet) :
    Submit s.jm logger name job = (s.jm, false)
      ∧ step s (.submit logger name job) = some s := by
  have e := Submit_dup s.jm logger name job h1 h2
  have hr : (name ≠ "" ∧ s.jm.reserved name = true) :=
    ⟨h1, by simp [jobManager.reserved, h2]⟩
  refine ⟨e, ?_⟩
  simp only [step, e, if_pos hr, Bool.false_eq_true, if_false]

/-- The scenario of C1: a second `Submit` of the name `renew:example.com`, with another
body (job 1), made while the first is still queued, changes nothing. -/
theorem Submit_reserved_name_noop_witness :
    run (init 1000) [.submit none "renew:example.com" 0] = some renewSubmitted
      ∧ (Submit renewSubmitted.jm none "renew:example.com" 1 = (renewSubmitted.jm, false)
        ∧ step renewSubmitted (.submit none "renew:example.com" 1) = some renewSubmitted) :=
  ⟨by decide,
    Submit_reserved_name_noop renewSubmitted none "renew:example.com" 1 (by decide) (by decide)⟩

/-! ## The concurrency bound -/

/-- C2: for `0 ≤ N` (a Go `int`, so `N < 2^63`), in every state reachable from the
initial state the number of running worker loops is at most `N`, and the number of
job bodies being executed is at most the number of running worker loops. -/
theorem running_workers_le_max (N : Int) (h0 : 0 ≤ N) (hN : N < 9223372036854775808)
    (s : System) (hr : Reachable N s) :
    (runningWorkers s.workers : Int) ≤ N
      ∧ (execJobs s.workers).length ≤ runningWorkers s.workers := by
  have h := Inv_of_reachable N h0 hN s hr
  have hc := h.count
  have hb := h.bound
  exact ⟨by omega, length_execJobs_le s.workers⟩

theorem twoBusy_reachable : Reachable 2 twoBusy :=
  ⟨[.submit none "" 0, .submit none "" 1, .submit none "" 2, .loopHead 0, .loopHead 1],
    by decide⟩

theorem running_workers_le_max_witness :
    Reachable 2 twoBusy
      ∧ ((runningWorkers twoBusy.workers : Int) ≤ 2
        ∧ (execJobs twoBusy.workers).length ≤ runningWorkers twoBusy.workers) :=
  ⟨twoBusy_reachable,
    running_workers_le_max 2 (by decide) (by decide) twoBusy twoBusy_reachable⟩

/-- C3: for `0 ≤ maxConcurrentJobs` (a Go `int`), in every state reachable from the
initial state the counter `activeWorkers` does not exceed `maxConcurrentJobs`. -/
theorem activeWorkers_le_max (N : Int) (h0 : 0 ≤ N) (hN : N < 9223372036854775808)
    (s : System) (hr : Reachable N s) :
    s.jm.activeWorkers ≤ s.jm.maxConcurrentJobs := by
  have h := Inv_of_reachable N h0 hN s hr
  rw [h.max]
  exact h.bound

theorem activeWorkers_le_max_witness :
    Reachable 2 twoBusy ∧ twoBusy.jm.activeWorkers ≤ twoBusy.jm.maxConcurrentJobs :=
  ⟨twoBusy_reachable,
    activeWorkers_le_max 2 (by decide) (by decide) twoBusy twoBusy_reachable⟩

/-! ## Submission order -/

theorem Sequential_step (s s1 : System) (h : Inv 1 s) (hq : Sequential s)
    (a : Action) (hs : step s a = some s1) : Sequential s1 := by
  have hone : runningWorkers s.workers ≤ 1 := by
    have hc := h.count
    have hb := h.bound
    omega
  unfold Sequential at hq ⊢
  cases a with
  | submit logger name job =>
    simp only [step, Option.some.injEq] at hs
    subst hs
    simp only []
    split
    · rw [execJobs_append, ← List.append_assoc, hq]
      simp [execJobs]
    · exact hq
  | loopHead w =>
    simp only [step] at hs
    cases hw : s.workers[w]? with
    | none => simp [hw] at hs
    | some st =>
      cases st with
      | atLoopHead =>
        simp only [hw] at hs
        obtain ⟨e1, e2⟩ := execJobs_of_one_running s.workers w _ hone hw rfl
        cases hqu : s.jm.queue with
        | nil =>
          simp only [worker.loopHead, hqu, Option.some.injEq] at hs
          subst hs
          simp only [e2]
          rw [← hq, e1]
          simp [execJobs]
        | cons next rest =>
          simp only [worker.loopHead, hqu, Option.some.injEq] at hs
          subst hs
          simp only [e2]
          rw [← hq, e1]
          simp [execJobs]
      | executing j => simp [hw] at hs
      | returned => simp [hw] at hs
      | panicked j => simp [hw] at hs
  | jobReturn w err =>
    simp only [step] at hs
    cases hw : s.workers[w]? with
    | none => simp [hw] at hs
    | some st =>
      cases st with
      | executing next =>
        simp only [hw, Option.some.injEq] at hs
        subst hs
        obtain ⟨e1, e2⟩ := execJobs_of_one_running s.workers w _ hone hw rfl
        simp only [e2]
        rw [← hq, e1]
        simp [execJobs]
      | atLoopHead => simp [hw] at hs
      | returned => simp [hw] at hs
      | panicked j => simp [hw] at hs
  | jobPanic w =>
    simp only [step] at hs
    cases hw : s.workers[w]? with
    | none => simp [hw] at hs
    | some st =>
      cases st with
      | executing next =>
        simp only [hw, Option.some.injEq] at hs
        subst hs
        obtain ⟨e1, e2⟩ := execJobs_of_one_running s.workers w _ hone hw rfl
        simp only [e2]
        rw [← hq, e1]
        simp [execJobs]
      | atLoopHead => simp [hw] at hs
      | returned => simp [hw] at hs
      | panicked j => simp [hw] at hs

theorem Sequential_run (acts : List Action) :
    ∀ s s1 : System, Inv 1 s → Sequential s → run s acts = some s1 → Sequential s1 := by
  induction acts with
  | nil =>
    intro s s1 _ hq hr
    simp only [run, Option.some.injEq] at hr
    exact hr ▸ hq
  | cons a t ih =>
    intro s s1 h hq hr
    simp only [run] at hr
    cases hst : step s a with
    | none => simp [hst] at hr
    | some s2 =>
      simp only [hst, Option.bind] at hr
      exact ih s2 s1 (Inv_step 1 (by decide) s s2 h a hst) (Sequential_step s s2 h hq a hst) hr

/-- C4: jobs are dequeued in submission order.  In every reachable state the jobs
popped so far, followed by the queue, are the jobs of the `Submit` calls that were not
suppressed by dedup, in the order of those calls.  With `maxConcurrentJobs = 1` the
jobs also execute in that order: at most one job is in execution, and the jobs whose
execution has ended followed by the one in execution are the popped jobs. -/
theorem dequeue_in_submission_order (N : Int) (h0 : 0 ≤ N) (hN : N < 9223372036854775808)
    (s : System) (hr : Reachable N s) :
    s.popped ++ s.jm.queue = s.accepted
      ∧ (N = 1 → s.finished ++ execJobs s.workers = s.popped
            ∧ (execJobs s.workers).length ≤ 1) := by
  have h := Inv_of_reachable N h0 hN s hr
  refine ⟨h.fifo, ?_⟩
  intro h1
  subst h1
  obtain ⟨acts, ha⟩ := hr
  have hs : Sequential s :=
    Sequential_run acts (init 1) s (Inv_init 1 h0) (by simp [Sequential, init, execJobs]) ha
  have hc := h.count
  have hb := h.bound
  have hl := length_execJobs_le s.workers
  exact ⟨hs, by omega⟩

theorem oneWorkerBusy_reachable : Reachable 1 oneWorkerBusy :=
  ⟨[.submit none "a" 0, .submit (some 7) "" 1, .submit none "a" 2, .loopHead 0,
    .jobReturn 0 (some "boom"), .loopHead 0, .submit none "a" 3], by decide⟩

theorem dequeue_in_submission_order_witness :
    Reachable 1 oneWorkerBusy
      ∧ (oneWorkerBusy.popped ++ oneWorkerBusy.jm.queue = oneWorkerBusy.accepted
        ∧ ((1 : Int) = 1 →
            oneWorkerBusy.finished ++ execJobs oneWorkerBusy.workers = oneWorkerBusy.popped
            ∧ (execJobs oneWorkerBusy.workers).length ≤ 1)) :=
  ⟨oneWorkerBusy_reachable,
    dequeue_in_submission_order 1 (by decide) (by decide) oneWorkerBusy
      oneWorkerBusy_reachable⟩

/-! ## Reserved names -/

theorem afterPanic_reachable : Reachable 1 afterPanic :=
  ⟨[.submit none "a" 0, .loopHead 0, .jobPanic 0], by decide⟩

/-- The number of live jobs (queued or in execution) named `n`. -/
theorem countP_live (n : String) (s : System) :
    (s.jm.queue ++ execJobs s.workers).countP (fun j => decide (j.name = n))
      = queuedNamed n s.jm.queue + s.workers.countP (workerState.runs n) := by
  rw [List.countP_append, countP_execJobs]
  rfl

theorem lost_le_panicked (n : String) (ws : List workerState) :
    ws.countP (workerState.lost n) ≤ panickedWorkers ws := by
  unfold panickedWorkers
  apply List.countP_mono_left
  intro x _ hx
  cases x <;> simp_all [workerState.lost, workerState.hasPanicked]

/-- The name of a queued or executing job is reserved, in every reachable state. -/
theorem reserved_of_live (N : Int) (h0 : 0 ≤ N) (hN : N < 9223372036854775808)
    (s : System) (hr : Reachable N s) (n : String) (hn : n ≠ "")
    (j : namedJob) (hj : j ∈ s.jm.queue ++ execJobs s.workers) (hjn : j.name = n) :
    n ∈ s.jm.nameSet := by
  have h := Inv_of_reachable N h0 hN s hr
  have hnm := h.names n hn
  have hpos : 0 < (s.jm.queue ++ execJobs s.workers).countP (fun j => decide (j.name = n)) :=
    List.countP_pos_iff.mpr ⟨j, hj, by simp [hjn]⟩
  rw [countP_live] at hpos
  by_contra hc
  rw [if_neg hc] at hnm
  omega

/-- As long as no worker has ended by a panic, a reserved name is the name of a queued
or executing job. -/
theorem live_of_reserved (N : Int) (h0 : 0 ≤ N) (hN : N < 9223372036854775808)
    (s : System) (hr : Reachable N s) (hp : panickedWorkers s.workers = 0)
    (n : String) (hn : n ∈ s.jm.nameSet) :
    n ≠ "" ∧ ∃ j ∈ s.jm.queue ++ execJobs s.workers, j.name = n := by
  have h := Inv_of_reachable N h0 hN s hr
  have hne : n ≠ "" := fun hc => h.noEmpty (hc ▸ hn)
  have hnm := h.names n hne
  rw [if_pos hn] at hnm
  have hl := lost_le_panicked n s.workers
  have hpos : 0 < (s.jm.queue ++ execJobs s.workers).countP (fun j => decide (j.name = n)) := by
    rw [countP_live]
    omega
  obtain ⟨j, hj, hjn⟩ := List.countP_pos_iff.mp hpos
  exact ⟨hne, j, hj, by simpa using hjn⟩

/-- C5: the code at the failing input.  After `Submit(nil, "a", job0)`, the pop of that
job and a panic of its body, the name `a` is still in the reserved-name set although no
job named `a` is queued or being executed: the `delete` of lines 75-79 is skipped when
the body panics. -/
theorem name_stays_reserved_after_panic :
    Reachable 1 afterPanic
      ∧ "a" ∈ afterPanic.jm.nameSet
      ∧ ∀ j ∈ afterPanic.jm.queue ++ execJobs afterPanic.workers, j.name ≠ "a" :=
  ⟨afterPanic_reachable, by decide, by simp [afterPanic, execJobs]⟩

/-- C6: in every reachable state, for every non-empty name, at most one job with that
name is among the queued jobs together with the jobs being executed by workers. -/
theorem at_most_one_live_job_per_name (N : Int) (h0 : 0 ≤ N)
    (hN : N < 9223372036854775808) (s : System) (hr : Reachable N s)
    (n : String) (hn : n ≠ "") :
    (s.jm.queue ++ execJobs s.workers).countP (fun j => decide (j.name = n)) ≤ 1 := by
  have h := Inv_of_reachable N h0 hN s hr
  have hnm := h.names n hn
  rw [countP_live]
  split at hnm <;> omega

theorem at_most_one_live_job_per_name_witness :
    Reachable 1 oneWorkerBusy ∧ "a" ≠ ""
      ∧ (oneWorkerBusy.jm.queue ++ execJobs oneWorkerBusy.workers).countP
          (fun j => decide (j.name = "a")) ≤ 1 :=
  ⟨oneWorkerBusy_reachable, by decide,
    at_most_one_live_job_per_name 1 (by decide) (by decide) oneWorkerBusy
      oneWorkerBusy_reachable "a" (by decide)⟩

/-- C7: when a worker is executing a job with a non-empty name and the body returns
(`err` is `none` for success, `some e` for an error), the step of the worker releases
the name, and a `Submit` with that name made next is accepted: its job is appended to
the queue and the name is reserved again.  This holds in every state, reachable ones
included. -/
theorem resubmit_after_return (s : System) (w : Nat) (next : namedJob)
    (err : Option String) (logger : Option Nat) (job : Nat)
    (hw : s.workers[w]? = some (workerState.executing next)) (hn : next.name ≠ "") :
    ∃ s1, step s (.jobReturn w err) = some s1
      ∧ next.name ∉ s1.jm.nameSet
      ∧ (Submit s1.jm logger next.name job).1.queue
          = s1.jm.queue ++ [namedJob.mk next.name job logger]
      ∧ next.name ∈ (Submit s1.jm logger next.name job).1.nameSet := by
  obtain ⟨_, _, _, en⟩ := release_fields s.jm next
  have hout : next.name ∉ (worker.release s.jm next).nameSet := by
    rw [en, if_pos hn]
    simp
  refine ⟨{ s with
      jm := worker.release s.jm next
      workers := s.workers.set w workerState.atLoopHead
      finished := s.finished ++ [next]
      logged := s.logged ++ worker.logFailure next err },
    by simp only [step, hw], hout, ?_⟩
  have hd : ¬ (next.name ≠ "" ∧ next.name ∈ (worker.release s.jm next).nameSet) :=
    fun hc => hout hc.2
  obtain ⟨eq, enm, _, _, _⟩ := Submit_accept (worker.release s.jm next) logger next.name job hd
  refine ⟨eq, ?_⟩
  rw [enm, if_pos hn]
  exact List.mem_cons_self _ _

theorem resubmit_after_return_witness :
    namedRunning.workers[0]? = some (workerState.executing (namedJob.mk "a" 0 none))
      ∧ (namedJob.mk "a" 0 none).name ≠ ""
      ∧ ∃ s1, step namedRunning (.jobReturn 0 (some "boom")) = some s1
        ∧ "a" ∉ s1.jm.nameSet
        ∧ (Submit s1.jm none "a" 1).1.queue = s1.jm.queue ++ [namedJob.mk "a" 1 none]
        ∧ "a" ∈ (Submit s1.jm none "a" 1).1.nameSet :=
  ⟨by decide, by decide,
    resubmit_after_return namedRunning 0 (namedJob.mk "a" 0 none) (some "boom") none 1
      (by decide) (by decide)⟩

/-! ## Panics of job bodies -/

/-- C8: the code at the failing input.  With `maxConcurrentJobs = 1`, after
`Submit(nil, "a", job0)` and the pop of that job, a panic of the body ends the only
worker loop and leaves `activeWorkers` at 1: the counter is 1 while no worker loop is
running.  The decrement of line 63 is on the empty-queue path only. -/
theorem activeWorkers_kept_by_panic :
    Reachable 1 namedRunning
      ∧ step namedRunning (.jobPanic 0) = some afterPanic
      ∧ namedRunning.jm.activeWorkers = 1
      ∧ runningWorkers namedRunning.workers = 1
      ∧ afterPanic.jm.activeWorkers = 1
      ∧ runningWorkers afterPanic.workers = 0 :=
  ⟨⟨[.submit none "a" 0, .loopHead 0], by decide⟩, by decide, by decide, by decide,
    by decide, by decide⟩

theorem not_running_of_zero (ws : List workerState) (h : runningWorkers ws = 0)
    (w : Nat) (st : workerState) (hw : ws[w]? = some st) : st.isRunning = false := by
  have := (List.countP_eq_zero.mp h) st (List.getElem?_mem hw)
  simpa using this

theorem Starved_step (b : namedJob) (s s1 : System) (h : Starved b s)
    (a : Action) (hs : step s a = some s1) : Starved b s1 := by
  obtain ⟨hrun, hmax, hb⟩ := h
  cases a with
  | submit logger name job =>
    simp only [step, Option.some.injEq] at hs
    subst hs
    by_cases hd : name ≠ "" ∧ name ∈ s.jm.nameSet
    · have e := Submit_dup s.jm logger name job hd.1 hd.2
      simp only [Starved, e, Bool.false_eq_true, if_false]
      exact ⟨hrun, hmax, hb⟩
    · obtain ⟨eq, _, em, ea, es⟩ := Submit_accept s.jm logger name job hd
      have hlt : ¬ s.jm.activeWorkers < s.jm.maxConcurrentJobs := by omega
      simp only [hlt, if_false, decide_False] at ea es
      simp only [Starved, eq, em, ea, es, Bool.false_eq_true, if_false]
      exact ⟨hrun, hmax, List.mem_append_left _ hb⟩
  | loopHead w =>
    simp only [step] at hs
    cases hw : s.workers[w]? with
    | none => simp [hw] at hs
    | some st =>
      have := not_running_of_zero s.workers hrun w st hw
      cases st <;> simp_all [workerState.isRunning]
  | jobReturn w err =>
    simp only [step] at hs
    cases hw : s.workers[w]? with
    | none => simp [hw] at hs
    | some st =>
      have := not_running_of_zero s.workers hrun w st hw
      cases st <;> simp_all [workerState.isRunning]
  | jobPanic w =>
    simp only [step] at hs
    cases hw : s.workers[w]? with
    | none => simp [hw] at hs
    | some st =>
      have := not_running_of_zero s.workers hrun w st hw
      cases st <;> simp_all [workerState.isRunning]

theorem Starved_run (b : namedJob) (acts : List Action) :
    ∀ s s1 : System, Starved b s → run s acts = some s1 → Starved b s1 := by
  induction acts with
  | nil =>
    intro s s1 h hr
    simp only [run, Option.some.injEq] at hr
    exact hr ▸ h
  | cons a t ih =>
    intro s s1 h hr
    simp only [run] at hr
    cases hst : step s a with
    | none => simp [hst] at hr
    | some s2 =>
      simp only [hst, Option.bind] at hr
      exact ih s2 s1 (Starved_step b s s2 h a hst) hr

/-- C9: the code at the failing input.  With `maxConcurrentJobs = 1`, submit job A
(job 0), let the worker pop it, let its body panic, then submit job B (job 1).  After
the `Submit` of B the queue is `[B]` and no worker loop is running, and in every state
reachable from there B is still in the queue with no worker loop running: B is never
executed. -/
theorem panic_starves_later_job :
    Reachable 1 panicThenSubmit
      ∧ panicThenSubmit.jm.queue = [namedJob.mk "" 1 none]
      ∧ runningWorkers panicThenSubmit.workers = 0
      ∧ ∀ (acts : List Action) (s : System), run panicThenSubmit acts = some s →
          runningWorkers s.workers = 0 ∧ namedJob.mk "" 1 none ∈ s.jm.queue := by
  refine ⟨⟨[.submit none "" 0, .loopHead 0, .jobPanic 0, .submit none "" 1], by decide⟩,
    by decide, by decide, ?_⟩
  intro acts s hr
  have h0 : Starved (namedJob.mk "" 1 none) panicThenSubmit :=
    ⟨by decide, by decide, by decide⟩
  obtain ⟨h1, _, h3⟩ := Starved_run _ acts panicThenSubmit s h0 hr
  exact ⟨h1, h3⟩

/-! ## Errors of job bodies -/

/-- C10: a job body returning an error does not stop the worker.  For every state in
which worker `w` is executing a popped job, the step taken when the body returns the
error `e` and the step taken when it returns `nil` are both enabled and end in the
same manager state (queue, reserved names, `activeWorkers`) and the same worker
states, with worker `w` back at the head of its loop; and if the queue is not empty,
the next step of worker `w` pops the head of the queue. -/
theorem error_does_not_stop_worker (s : System) (w : Nat) (next : namedJob) (e : String)
    (hw : s.workers[w]? = some (workerState.executing next)) :
    ∃ s1 s2, step s (.jobReturn w (some e)) = some s1
      ∧ step s (.jobReturn w none) = some s2
      ∧ s1.jm = s2.jm ∧ s1.workers = s2.workers
      ∧ s1.jm = worker.release s.jm next
      ∧ s1.workers[w]? = some workerState.atLoopHead
      ∧ ∀ j rest, s1.jm.queue = j :: rest →
          ∃ s3, step s1 (.loopHead w) = some s3
            ∧ s3.workers[w]? = some (workerState.executing j)
            ∧ s3.jm.queue = rest
            ∧ s3.jm.activeWorkers = s1.jm.activeWorkers := by
  have hlt : w < s.workers.length := by
    by_contra hc
    rw [List.getElem?_eq_none (by omega)] at hw
    exact Option.noConfusion hw
  have hset : ∀ x : workerState, (s.workers.set w x)[w]? = some x := by
    intro x
    simp [List.getElem?_set, hlt]
  refine ⟨{ s with
      jm := worker.release s.jm next
      workers := s.workers.set w workerState.atLoopHead
      finished := s.finished ++ [next]
      logged := s.logged ++ worker.logFailure next (some e) },
    { s with
      jm := worker.release s.jm next
      workers := s.workers.set w workerState.atLoopHead
      finished := s.finished ++ [next]
      logged := s.logged ++ worker.logFailure next none },
    by simp only [step, hw], by simp only [step, hw], rfl, rfl, rfl, hset _, ?_⟩
  intro j rest hq
  simp only at hq
  refine ⟨{ s with
      jm := { worker.release s.jm next with queue := rest }
      workers := (s.workers.set w workerState.atLoopHead).set w (workerState.executing j)
      finished := s.finished ++ [next]
      logged := s.logged ++ worker.logFailure next (some e)
      popped := s.popped ++ [j] }, ?_, ?_, rfl, rfl⟩
  · simp only [step, hset, worker.loopHead, hq]
  · simp [List.getElem?_set, hlt]

theorem error_does_not_stop_worker_witness :
    oneWorkerBusy.workers[0]? = some (workerState.executing (namedJob.mk "" 1 (some 7)))
      ∧ ∃ s1 s2, step oneWorkerBusy (.jobReturn 0 (some "boom")) = some s1
        ∧ step oneWorkerBusy (.jobReturn 0 none) = some s2
        ∧ s1.jm = s2.jm ∧ s1.workers = s2.workers
        ∧ s1.jm = worker.release oneWorkerBusy.jm (namedJob.mk "" 1 (some 7))
        ∧ s1.workers[0]? = some workerState.atLoopHead
        ∧ ∀ j rest, s1.jm.queue = j :: rest →
            ∃ s3, step s1 (.loopHead 0) = some s3
              ∧ s3.workers[0]? = some (workerState.executing j)
              ∧ s3.jm.queue = rest
              ∧ s3.jm.activeWorkers = s1.jm.activeWorkers :=
  ⟨by decide,
    error_does_not_stop_worker oneWorkerBusy 0 (namedJob.mk "" 1 (some 7)) "boom"
      (by decide)⟩

/-! ## Accepted submissions -/

/-- C11: a `Submit` call that enqueues its job (the name is empty or not reserved), in
a state whose counters are Go `int` values.  The queue grows by exactly that job at the
tail.  If `activeWorkers < maxConcurrentJobs` before the call, `activeWorkers` grows by
exactly 1 and exactly one worker is started; otherwise `activeWorkers` and the workers
are unchanged. -/
theorem Submit_enqueue_starts_worker (s : System) (logger : Option Nat) (name : String)
    (job : Nat) (hacc : name = "" ∨ name ∉ s.jm.nameSet)
    (hlo : -9223372036854775808 ≤ s.jm.activeWorkers)
    (hhi : s.jm.maxConcurrentJobs < 9223372036854775808) :
    ∃ s1, step s (.submit logger name job) = some s1
      ∧ s1.jm.queue = s.jm.queue ++ [namedJob.mk name job logger]
      ∧ (s.jm.activeWorkers < s.jm.maxConcurrentJobs →
          s1.jm.activeWorkers = s.jm.activeWorkers + 1
            ∧ (Submit s.jm logger name job).2 = true
            ∧ s1.workers = s.workers ++ [workerState.atLoopHead])
      ∧ (¬ s.jm.activeWorkers < s.jm.maxConcurrentJobs →
          s1.jm.activeWorkers = s.jm.activeWorkers
            ∧ (Submit s.jm logger name job).2 = false
            ∧ s1.workers = s.workers) := by
  have hd : ¬ (name ≠ "" ∧ name ∈ s.jm.nameSet) := by
    intro hc
    cases hacc with
    | inl h => exact hc.1 h
    | inr h => exact h hc.2
  obtain ⟨eq, _, _, ea, es⟩ := Submit_accept s.jm logger name job hd
  refine ⟨_, rfl, eq, ?_, ?_⟩
  · intro hlt
    have hw : wrapInt (s.jm.activeWorkers + 1) = s.jm.activeWorkers + 1 :=
      wrapInt_eq _ (by omega) (by omega)
    simp only [hlt, if_true, decide_True, hw] at ea es
    exact ⟨ea, es, by simp only [es, if_true]⟩
  · intro hlt
    simp only [hlt, if_false, decide_False] at ea es
    exact ⟨ea, es, by simp only [es, Bool.false_eq_true, if_false]⟩

theorem Submit_enqueue_starts_worker_witness :
    ("" = "" ∨ "" ∉ twoBusy.jm.nameSet)
      ∧ ∃ s1, step twoBusy (.submit none "" 3) = some s1
        ∧ s1.jm.queue = twoBusy.jm.queue ++ [namedJob.mk "" 3 none]
        ∧ (twoBusy.jm.activeWorkers < twoBusy.jm.maxConcurrentJobs →
            s1.jm.activeWorkers = twoBusy.jm.activeWorkers + 1
              ∧ (Submit twoBusy.jm none "" 3).2 = true
              ∧ s1.workers = twoBusy.workers ++ [workerState.atLoopHead])
        ∧ (¬ twoBusy.jm.activeWorkers < twoBusy.jm.maxConcurrentJobs →
            s1.jm.activeWorkers = twoBusy.jm.activeWorkers
              ∧ (Submit twoBusy.jm none "" 3).2 = false
              ∧ s1.workers = twoBusy.workers) :=
  ⟨Or.inl rfl,
    Submit_enqueue_starts_worker twoBusy none "" 3 (Or.inl rfl) (by decide) (by decide)⟩

/-- C12: `Submit` with an empty name does no duplicate prevention.  In every manager
state the job is appended at the tail of the queue, whatever is queued already, and
the reserved-name set is unchanged; the empty string is not added to it. -/
theorem Submit_empty_name_enqueues (jm : jobManager) (logger : Option Nat) (job : Nat) :
    (Submit jm logger "" job).1.queue = jm.queue ++ [namedJob.mk "" job logger]
      ∧ (Submit jm logger "" job).1.nameSet = jm.nameSet
      ∧ (Submit jm logger "" job).1.names = jm.makeNames.names
      ∧ ("" ∉ jm.nameSet → "" ∉ (Submit jm logger "" job).1.nameSet) := by
  have hd : ¬ (("" : String) ≠ "" ∧ "" ∈ jm.nameSet) := fun hc => hc.1 rfl
  obtain ⟨eq, en, _, _, _⟩ := Submit_accept jm logger "" job hd
  have en1 : (Submit jm logger "" job).1.nameSet = jm.nameSet := by
    rw [en]
    simp
  refine ⟨eq, en1, ?_, fun h => en1 ▸ h⟩
  obtain ⟨m, a, q, ns⟩ := jm
  by_cases h2 : a < m <;> cases ns <;> simp [Submit, jobManager.makeNames, h2]

/-! ## Logging of failures -/

/-- C13: for a job executed by worker `w`, when the body returns `err` the step of the
worker makes exactly the logger calls `worker.logFailure next err`: one call, on the
logger of the job and with the returned error, if the error is non-nil and the logger
is non-nil, and no call if the body returned `nil` or the logger is nil.  A body that
panics leads to no logger call either. -/
theorem logger_called_once_on_failure (s : System) (w : Nat) (next : namedJob)
    (err : Option String) (hw : s.workers[w]? = some (workerState.executing next)) :
    ∃ s1 calls, step s (.jobReturn w err) = some s1
      ∧ s1.logged = s.logged ++ calls
      ∧ (∀ e l, err = some e → next.logger = some l → calls = [(l, e)])
      ∧ (err = none ∨ next.logger = none → calls = [])
      ∧ ∃ s2, step s (.jobPanic w) = some s2 ∧ s2.logged = s.logged := by
  refine ⟨{ s with
      jm := worker.release s.jm next
      workers := s.workers.set w workerState.atLoopHead
      finished := s.finished ++ [next]
      logged := s.logged ++ worker.logFailure next err },
    worker.logFailure next err, by simp only [step, hw], rfl, ?_, ?_,
    ⟨{ s with
        workers := s.workers.set w (workerState.panicked next)
        finished := s.finished ++ [next] }, by simp only [step, hw], rfl⟩⟩
  · intro e l he hl
    simp [worker.logFailure, he, hl]
  · intro h
    cases h with
    | inl he => simp [worker.logFailure, he]
    | inr hl =>
      cases err with
      | none => simp [worker.logFailure]
      | some e => simp [worker.logFailure, hl]

theorem logger_called_once_on_failure_witness :
    oneWorkerBusy.workers[0]? = some (workerState.executing (namedJob.mk "" 1 (some 7)))
      ∧ ∃ s1 calls, step oneWorkerBusy (.jobReturn 0 (some "boom")) = some s1
        ∧ s1.logged = oneWorkerBusy.logged ++ calls
        ∧ (∀ e l, some "boom" = some e → (namedJob.mk "" 1 (some 7)).logger = some l →
            calls = [(l, e)])
        ∧ (some "boom" = none ∨ (namedJob.mk "" 1 (some 7)).logger = none → calls = [])
        ∧ ∃ s2, step oneWorkerBusy (.jobPanic 0) = some s2
            ∧ s2.logged = oneWorkerBusy.logged :=
  ⟨by decide,
    logger_called_once_on_failure oneWorkerBusy 0 (namedJob.mk "" 1 (some 7)) (some "boom")
      (by decide)⟩

/-! ## The no-retry signal -/

theorem toError_Error (e : ErrNoRetry) : e.toError.Error = e.Error := by
  obtain ⟨x⟩ := e
  cases x <;> rfl

/-- C14: for every non-nil error `e`, `ErrNoRetry{e}.Unwrap()` returns `e` itself and
`ErrNoRetry{e}.Error()` is the call `e.Error()`: it returns exactly the string that
`e.Error()` returns. -/
theorem ErrNoRetry_wraps_cause (e : goError) :
    (ErrNoRetry.mk (some e)).Unwrap = some e
      ∧ (ErrNoRetry.mk (some e)).Error = e.Error
      ∧ ∀ msg : String, e.Error = some msg → (ErrNoRetry.mk (some e)).Error = some msg :=
  ⟨rfl, rfl, fun _ h => h⟩

/-- C18 as stated fails: the `ErrNoRetry` whose `Err` field holds `ErrNoRetry{nil}`
has a non-nil `Err`, and its `Error()` panics. -/
theorem ErrNoRetry_Error_fails_on_nested_nil :
    (ErrNoRetry.mk (some (ErrNoRetry.mk none).toError)).Err ≠ none
      ∧ (ErrNoRetry.mk (some (ErrNoRetry.mk none).toError)).Error = none :=
  ⟨by decide, by decide⟩

/-- C18, amended: `ErrNoRetry.Error` is partial.  With a nil `Err` field `Error()`
fails while `Unwrap()` returns nil.  With a non-nil `Err` field `Error()` does what
`Err.Error()` does, so `Error()` succeeds exactly when `Err` is non-nil and
`Err.Error()` succeeds; for an `Err` of a type other than `ErrNoRetry` it succeeds. -/
theorem ErrNoRetry_Error_defined_iff (e : ErrNoRetry) :
    (e.Err = none → e.Error = none ∧ e.Unwrap = none)
      ∧ (∀ x, e.Err = some x → e.Error = x.Error ∧ e.Unwrap = some x)
      ∧ (e.Error.isSome = true ↔ ∃ x, e.Err = some x ∧ x.Error.isSome = true)
      ∧ (∀ msg, e.Err = some (goError.other msg) → e.Error = some msg) := by
  obtain ⟨x⟩ := e
  cases x with
  | none => simp [ErrNoRetry.Error, ErrNoRetry.Unwrap]
  | some y =>
    simp only [ErrNoRetry.Error, ErrNoRetry.Unwrap]
    refine ⟨fun h => Option.noConfusion h, fun x hx => ?_, ?_, fun msg hm => ?_⟩
    · cases hx
      exact ⟨rfl, rfl⟩
    · constructor
      · intro h
        exact ⟨y, rfl, h⟩
      · rintro ⟨x, hx, h⟩
        cases hx
        exact h
    · cases hm
      rfl

theorem ErrNoRetry_Error_defined_iff_witness :
    ((ErrNoRetry.mk none).Err = none →
        (ErrNoRetry.mk none).Error = none ∧ (ErrNoRetry.mk none).Unwrap = none)
      ∧ (∀ x, (ErrNoRetry.mk none).Err = some x →
          (ErrNoRetry.mk none).Error = x.Error ∧ (ErrNoRetry.mk none).Unwrap = some x)
      ∧ ((ErrNoRetry.mk none).Error.isSome = true
          ↔ ∃ x, (ErrNoRetry.mk none).Err = some x ∧ x.Error.isSome = true)
      ∧ (∀ msg, (ErrNoRetry.mk none).Err = some (goError.other msg) →
          (ErrNoRetry.mk none).Error = some msg) :=
  ErrNoRetry_Error_defined_iff (ErrNoRetry.mk none)

/-! ## Draining the queue -/

theorem mem_nameSet_release (jm : jobManager) (next : namedJob) (n : String) :
    n ∈ (worker.release jm next).nameSet
      ↔ n ∈ jm.nameSet ∧ ¬ (n ≠ "" ∧ next.name = n) := by
  obtain ⟨_, _, _, en⟩ := release_fields jm next
  rw [en]
  by_cases h1 : next.name = ""
  · simp only [h1, ne_eq, not_true_eq_false, if_false]
    constructor
    · intro h
      exact ⟨h, fun hc => hc.1 hc.2.symm⟩
    · intro h
      exact h.1
  · simp only [ne_eq, h1, not_false_eq_true, if_true, List.mem_filter, decide_eq_true_eq]
    constructor
    · rintro ⟨h, hne⟩
      exact ⟨h, fun hc => hne hc.2.symm⟩
    · rintro ⟨h, hne⟩
      refine ⟨h, fun hc => hne ⟨?_, hc.symm⟩⟩
      intro h0
      exact h1 (hc ▸ h0)

theorem worker_drain_aux (body : Nat → bodyResult) :
    ∀ (q : List namedJob) (jm : jobManager) (k fuel : Nat),
      jm.queue = q →
      (∀ i, i < q.length → ∃ err, body (k + i) = bodyResult.returns err) →
      q.length < fuel →
      ∃ r, worker body fuel k jm = some r
        ∧ r.executed = q ∧ r.panicked = false
        ∧ r.jm.queue = []
        ∧ r.jm.activeWorkers = wrapInt (jm.activeWorkers - 1)
        ∧ r.jm.maxConcurrentJobs = jm.maxConcurrentJobs
        ∧ ∀ n, n ∈ r.jm.nameSet
            ↔ n ∈ jm.nameSet ∧ ¬ (n ≠ "" ∧ ∃ j ∈ q, j.name = n) := by
  intro q
  induction q with
  | nil =>
    intro jm k fuel hq _ hf
    cases fuel with
    | zero => simp at hf
    | succ f =>
      refine ⟨{ jm := { jm with activeWorkers := wrapInt (jm.activeWorkers - 1) },
                executed := [], logged := [], panicked := false }, ?_, rfl, rfl, hq, rfl, rfl, ?_⟩
      · simp only [worker, worker.loopHead, hq]
      · intro n
        simp [jobManager.nameSet]
  | cons next rest ih =>
    intro jm k fuel hq hb hf
    cases fuel with
    | zero => simp at hf
    | succ f =>
      obtain ⟨err, he⟩ := hb 0 (by simp)
      simp only [Nat.add_zero] at he
      obtain ⟨eq, ea, em, _⟩ := release_fields { jm with queue := rest } next
      have hb1 : ∀ i, i < rest.length → ∃ err, body (k + 1 + i) = bodyResult.returns err := by
        intro i hi
        have := hb (i + 1) (by simp; omega)
        rwa [show k + (i + 1) = k + 1 + i by omega] at this
      obtain ⟨r, hr, hex, hp, hqe, hact, hmax, hnm⟩ :=
        ih (worker.release { jm with queue := rest } next) (k + 1) f eq hb1
          (by simp at hf; omega)
      refine ⟨{ r with
          executed := next :: r.executed
          logged := worker.logFailure next err ++ r.logged }, ?_, ?_, hp, hqe, ?_, ?_, ?_⟩
      · simp only [worker, worker.loopHead, hq, he, hr]
      · simp only [hex]
      · simp only [hact, ea]
      · simp only [hmax, em]
      · intro n
        simp only [hnm, mem_nameSet_release]
        have hset : ({ jm with queue := rest } : jobManager).nameSet = jm.nameSet := rfl
        rw [hset]
        simp only [List.mem_cons, exists_eq_or_imp]
        constructor
        · rintro ⟨⟨h1, h2⟩, h3⟩
          refine ⟨h1, ?_⟩
          rintro ⟨hn, hc⟩
          rcases hc with hc | hc
          · exact h2 ⟨hn, hc⟩
          · exact h3 ⟨hn, hc⟩
        · rintro ⟨h1, h2⟩
          exact ⟨⟨h1, fun hc => h2 ⟨hc.1, Or.inl hc.2⟩⟩, fun hc => h2 ⟨hc.1, Or.inr hc.2⟩⟩

theorem worker_short_of_fuel (body : Nat → bodyResult) :
    ∀ (q : List namedJob) (jm : jobManager) (k : Nat),
      jm.queue = q →
      (∀ i, i < q.length → ∃ err, body (k + i) = bodyResult.returns err) →
      worker body q.length k jm = none := by
  intro q
  induction q with
  | nil =>
    intro jm k _ _
    rfl
  | cons next rest ih =>
    intro jm k hq hb
    obtain ⟨err, he⟩ := hb 0 (by simp)
    simp only [Nat.add_zero] at he
    obtain ⟨eq, _, _, _⟩ := release_fields { jm with queue := rest } next
    have hb1 : ∀ i, i < rest.length → ∃ err, body (k + 1 + i) = bodyResult.returns err := by
      intro i hi
      have := hb (i + 1) (by simp; omega)
      rwa [show k + (i + 1) = k + 1 + i by omega] at this
    have := ih (worker.release { jm with queue := rest } next) (k + 1) eq hb1
    simp only [List.length_cons, worker, worker.loopHead, hq, he, this]

/-- C15: a worker loop run alone on a manager whose queue is `q`, with every body
returning (an error or `nil`) and counters that are Go `int` values with no underflow.
The loop ends: entering the head of the loop `len(q)` times is not enough, and with any
larger bound the call returns, having executed exactly the jobs of `q`, each once and in
queue order.  It leaves the queue empty, has removed from the reserved-name set exactly
the non-empty names of the jobs of `q`, and has decreased `activeWorkers` by exactly 1. -/
theorem worker_drains_queue (body : Nat → bodyResult) (jm : jobManager) (fuel : Nat)
    (hret : ∀ i, i < jm.queue.length → ∃ err, body i = bodyResult.returns err)
    (hfuel : jm.queue.length < fuel)
    (hlo : -9223372036854775808 < jm.activeWorkers)
    (hhi : jm.activeWorkers < 9223372036854775808) :
    worker body jm.queue.length 0 jm = none
      ∧ ∃ r, worker body fuel 0 jm = some r
        ∧ r.panicked = false
        ∧ r.executed = jm.queue
        ∧ r.jm.queue = []
        ∧ (∀ j ∈ jm.queue, j.name ≠ "" → j.name ∉ r.jm.nameSet)
        ∧ (∀ n, n ∈ r.jm.nameSet
            ↔ n ∈ jm.nameSet ∧ ¬ (n ≠ "" ∧ ∃ j ∈ jm.queue, j.name = n))
        ∧ r.jm.activeWorkers = jm.activeWorkers - 1
        ∧ r.jm.maxConcurrentJobs = jm.maxConcurrentJobs := by
  have hb : ∀ i, i < jm.queue.length → ∃ err, body (0 + i) = bodyResult.returns err := by
    intro i hi
    rw [Nat.zero_add]
    exact hret i hi
  refine ⟨worker_short_of_fuel body jm.queue jm 0 rfl hb, ?_⟩
  obtain ⟨r, hr, hex, hp, hq, hact, hmax, hnm⟩ :=
    worker_drain_aux body jm.queue jm 0 fuel rfl hb hfuel
  refine ⟨r, hr, hp, hex, hq, ?_, hnm, ?_, hmax⟩
  · intro j hj hn hc
    exact ((hnm j.name).mp hc).2 ⟨hn, j, hj, rfl⟩
  · rw [hact]
    exact wrapInt_eq _ (by omega) (by omega)

theorem worker_drains_queue_witness :
    (∀ i, i < twoQueued.queue.length → ∃ err, firstFails i = bodyResult.returns err)
      ∧ twoQueued.queue.length < 3
      ∧ (worker firstFails twoQueued.queue.length 0 twoQueued = none
        ∧ ∃ r, worker firstFails 3 0 twoQueued = some r
          ∧ r.panicked = false
          ∧ r.executed = twoQueued.queue
          ∧ r.jm.queue = []
          ∧ (∀ j ∈ twoQueued.queue, j.name ≠ "" → j.name ∉ r.jm.nameSet)
          ∧ (∀ n, n ∈ r.jm.nameSet
              ↔ n ∈ twoQueued.nameSet ∧ ¬ (n ≠ "" ∧ ∃ j ∈ twoQueued.queue, j.name = n))
          ∧ r.jm.activeWorkers = twoQueued.activeWorkers - 1
          ∧ r.jm.maxConcurrentJobs = twoQueued.maxConcurrentJobs) :=
  ⟨fun _ _ => ⟨_, rfl⟩, by decide,
    worker_drains_queue firstFails twoQueued 3 (fun _ _ => ⟨_, rfl⟩) (by decide)
      (by decide) (by decide)⟩

/-! ## What a panic leaves behind -/

theorem panicked_mono_step (s s1 : System) (a : Action) (hs : step s a = some s1) :
    panickedWorkers s.workers ≤ panickedWorkers s1.workers := by
  unfold panickedWorkers
  cases a with
  | submit logger name job =>
    simp only [step, Option.some.injEq] at hs
    subst hs
    simp only []
    split
    · simp [List.countP_append]
    · exact Nat.le_refl _
  | loopHead w =>
    simp only [step] at hs
    cases hw : s.workers[w]? with
    | none => simp [hw] at hs
    | some st =>
      cases st with
      | atLoopHead =>
        simp only [hw] at hs
        cases hq : s.jm.queue with
        | nil =>
          simp only [worker.loopHead, hq, Option.some.injEq] at hs
          subst hs
          have := countP_set_add workerState.hasPanicked workerState.returned s.workers w _ hw
          simp [workerState.hasPanicked] at this
          simp only [this]
          exact Nat.le_refl _
        | cons next rest =>
          simp only [worker.loopHead, hq, Option.some.injEq] at hs
          subst hs
          have := countP_set_add workerState.hasPanicked (workerState.executing next)
            s.workers w _ hw
          simp [workerState.hasPanicked] at this
          simp only [this]
          exact Nat.le_refl _
      | executing j => simp [hw] at hs
      | returned => simp [hw] at hs
      | panicked j => simp [hw] at hs
  | jobReturn w err =>
    simp only [step] at hs
    cases hw : s.workers[w]? with
    | none => simp [hw] at hs
    | some st =>
      cases st with
      | executing next =>
        simp only [hw, Option.some.injEq] at hs
        subst hs
        have := countP_set_add workerState.hasPanicked workerState.atLoopHead s.workers w _ hw
        simp [workerState.hasPanicked] at this
        simp only [this]
        exact Nat.le_refl _
      | atLoopHead => simp [hw] at hs
      | returned => simp [hw] at hs
      | panicked j => simp [hw] at hs
  | jobPanic w =>
    simp only [step] at hs
    cases hw : s.workers[w]? with
    | none => simp [hw] at hs
    | some st =>
      cases st with
      | executing next =>
        simp only [hw, Option.some.injEq] at hs
        subst hs
        have := countP_set_add workerState.hasPanicked (workerState.panicked next)
          s.workers w _ hw
        simp [workerState.hasPanicked] at this
        simp only []
        omega
      | atLoopHead => simp [hw] at hs
      | returned => simp [hw] at hs
      | panicked j => simp [hw] at hs

theorem panicked_mono_run (acts : List Action) :
    ∀ s s1 : System, run s acts = some s1 →
      panickedWorkers s.workers ≤ panickedWorkers s1.workers := by
  induction acts with
  | nil =>
    intro s s1 hr
    simp only [run, Option.some.injEq] at hr
    exact hr ▸ Nat.le_refl _
  | cons a t ih =>
    intro s s1 hr
    simp only [run] at hr
    cases hst : step s a with
    | none => simp [hst] at hr
    | some s2 =>
      simp only [hst, Option.bind] at hr
      exact Nat.le_trans (panicked_mono_step s s2 a hst) (ih s2 s1 hr)

theorem Submit_starts_none_when_full (jm : jobManager) (logger : Option Nat)
    (name : String) (job : Nat) (h : jm.maxConcurrentJobs ≤ jm.activeWorkers) :
    (Submit jm logger name job).2 = false := by
  by_cases hd : name ≠ "" ∧ name ∈ jm.nameSet
  · rw [Submit_dup jm logger name job hd.1 hd.2]
  · obtain ⟨_, _, _, _, es⟩ := Submit_accept jm logger name job hd
    rw [es]
    simp only [decide_eq_false_iff_not]
    omega

/-- C16: the accounting invariant of the code.  In every reachable state
`activeWorkers` is the number of running worker loops plus the number of workers ended
by a panic of a job body; so it is never negative and the running worker loops number at
most `N` minus the panics so far.  The number of panics never goes down, and once it
has reached `N` no worker loop runs and no `Submit` starts a worker, in any later
state. -/
theorem activeWorkers_counts_running_and_panicked (N : Int) (h0 : 0 ≤ N)
    (hN : N < 9223372036854775808) (s : System) (hr : Reachable N s) :
    s.jm.activeWorkers
        = (runningWorkers s.workers : Int) + (panickedWorkers s.workers : Int)
      ∧ 0 ≤ s.jm.activeWorkers
      ∧ (runningWorkers s.workers : Int) ≤ N - (panickedWorkers s.workers : Int)
      ∧ (∀ acts s1, run s acts = some s1 →
          panickedWorkers s.workers ≤ panickedWorkers s1.workers)
      ∧ ((panickedWorkers s.workers : Int) = N →
          ∀ acts s1, run s acts = some s1 →
            runningWorkers s1.workers = 0
              ∧ ∀ logger name job, (Submit s1.jm logger name job).2 = false) := by
  have h := Inv_of_reachable N h0 hN s hr
  have hc := h.count
  have hb := h.bound
  refine ⟨hc, by omega, by omega, fun acts s1 hr1 => panicked_mono_run acts s s1 hr1, ?_⟩
  intro hp acts s1 hr1
  have h1 := Inv_run N hN acts s s1 h hr1
  have hm := panicked_mono_run acts s s1 hr1
  have hc1 := h1.count
  have hb1 := h1.bound
  have hmax := h1.max
  refine ⟨by omega, fun logger name job => ?_⟩
  exact Submit_starts_none_when_full s1.jm logger name job (by omega)

theorem activeWorkers_counts_running_and_panicked_witness :
    Reachable 1 afterPanic
      ∧ (afterPanic.jm.activeWorkers
          = (runningWorkers afterPanic.workers : Int) + (panickedWorkers afterPanic.workers : Int)
        ∧ 0 ≤ afterPanic.jm.activeWorkers
        ∧ (runningWorkers afterPanic.workers : Int)
            ≤ 1 - (panickedWorkers afterPanic.workers : Int)
        ∧ (∀ acts s1, run afterPanic acts = some s1 →
            panickedWorkers afterPanic.workers ≤ panickedWorkers s1.workers)
        ∧ ((panickedWorkers afterPanic.workers : Int) = 1 →
            ∀ acts s1, run afterPanic acts = some s1 →
              runningWorkers s1.workers = 0
                ∧ ∀ logger name job, (Submit s1.jm logger name job).2 = false)) :=
  ⟨afterPanic_reachable,
    activeWorkers_counts_running_and_panicked 1 (by decide) (by decide) afterPanic
      afterPanic_reachable⟩

theorem panicked_stays_step (s s1 : System) (a : Action) (hs : step s a = some s1)
    (w : Nat) (j : namedJob) (hw : s.workers[w]? = some (workerState.panicked j)) :
    s1.workers[w]? = some (workerState.panicked j) := by
  have hne : ∀ (v : Nat) (st x : workerState), s.workers[v]? = some st →
      st ≠ workerState.panicked j → (s.workers.set v x)[w]? = some (workerState.panicked j) := by
    intro v st x hv hst
    have hvw : v ≠ w := by
      intro hc
      subst hc
      rw [hw] at hv
      exact hst (Option.some.inj hv).symm
    rw [List.getElem?_set_ne hvw]
    exact hw
  cases a with
  | submit logger name job =>
    simp only [step, Option.some.injEq] at hs
    subst hs
    simp only []
    split
    · have hlt : w < s.workers.length := by
        by_contra hc
        rw [List.getElem?_eq_none (by omega)] at hw
        exact Option.noConfusion hw
      rw [List.getElem?_append_left hlt]
      exact hw
    · exact hw
  | loopHead v =>
    simp only [step] at hs
    cases hv : s.workers[v]? with
    | none => simp [hv] at hs
    | some st =>
      cases st with
      | atLoopHead =>
        simp only [hv] at hs
        cases hq : s.jm.queue with
        | nil =>
          simp only [worker.loopHead, hq, Option.some.injEq] at hs
          subst hs
          exact hne v _ _ hv (by simp)
        | cons next rest =>
          simp only [worker.loopHead, hq, Option.some.injEq] at hs
          subst hs
          exact hne v _ _ hv (by simp)
      | executing j => simp [hv] at hs
      | returned => simp [hv] at hs
      | panicked j => simp [hv] at hs
  | jobReturn v err =>
    simp only [step] at hs
    cases hv : s.workers[v]? with
    | none => simp [hv] at hs
    | some st =>
      cases st with
      | executing next =>
        simp only [hv, Option.some.injEq] at hs
        subst hs
        exact hne v _ _ hv (by simp)
      | atLoopHead => simp [hv] at hs
      | returned => simp [hv] at hs
      | panicked j => simp [hv] at hs
  | jobPanic v =>
    simp only [step] at hs
    cases hv : s.workers[v]? with
    | none => simp [hv] at hs
    | some st =>
      cases st with
      | executing next =>
        simp only [hv, Option.some.injEq] at hs
        subst hs
        exact hne v _ _ hv (by simp)
      | atLoopHead => simp [hv] at hs
      | returned => simp [hv] at hs
      | panicked j => simp [hv] at hs

theorem panicked_stays_run (acts : List Action) :
    ∀ (s s1 : System) (w : Nat) (j : namedJob), run s acts = some s1 →
      s.workers[w]? = some (workerState.panicked j) →
      s1.workers[w]? = some (workerState.panicked j) := by
  induction acts with
  | nil =>
    intro s s1 w j hr hw
    simp only [run, Option.some.injEq] at hr
    exact hr ▸ hw
  | cons a t ih =>
    intro s s1 w j hr hw
    simp only [run] at hr
    cases hst : step s a with
    | none => simp [hst] at hr
    | some s2 =>
      simp only [hst, Option.bind] at hr
      exact ih s2 s1 w j hr (panicked_stays_step s s2 a hst w j hw)

/-- C17: if the body of a job with the non-empty name `n`, executed by worker `w` in a
reachable state, panics, the panic step leaves the name map as it is, and `n` is in the
reserved-name set of every state reachable afterwards; every later `Submit` with the
name `n` is dropped as a duplicate, leaving the state unchanged. -/
theorem name_reserved_forever_after_panic (N : Int) (h0 : 0 ≤ N)
    (hN : N < 9223372036854775808) (s : System) (hr : Reachable N s)
    (w : Nat) (next : namedJob)
    (hw : s.workers[w]? = some (workerState.executing next)) (hn : next.name ≠ "") :
    ∃ s1, step s (.jobPanic w) = some s1
      ∧ s1.jm.names = s.jm.names
      ∧ ∀ acts s2, run s1 acts = some s2 →
          next.name ∈ s2.jm.nameSet
            ∧ ∀ logger job,
                Submit s2.jm logger next.name job = (s2.jm, false)
                  ∧ step s2 (.submit logger next.name job) = some s2 := by
  have hst : step s (.jobPanic w) = some { s with
      workers := s.workers.set w (workerState.panicked next)
      finished := s.finished ++ [next] } := by
    simp only [step, hw]
  refine ⟨_, hst, rfl, ?_⟩
  intro acts s2 hr2
  have h := Inv_of_reachable N h0 hN s hr
  have h1 := Inv_step N hN s _ h _ hst
  have h2 := Inv_run N hN acts _ s2 h1 hr2
  have hlt : w < s.workers.length := by
    by_contra hc
    rw [List.getElem?_eq_none (by omega)] at hw
    exact Option.noConfusion hw
  have hw1 : (s.workers.set w (workerState.panicked next))[w]?
      = some (workerState.panicked next) := by
    simp [List.getElem?_set, hlt]
  have hw2 := panicked_stays_run acts _ s2 w next hr2 hw1
  have hpos : 0 < s2.workers.countP (workerState.lost next.name) :=
    List.countP_pos_iff.mpr ⟨_, List.getElem?_mem hw2, by simp [workerState.lost]⟩
  have hmem : next.name ∈ s2.jm.nameSet := by
    have hnm := h2.names next.name hn
    by_contra hc
    rw [if_neg hc] at hnm
    omega
  refine ⟨hmem, fun logger job => ?_⟩
  have e := Submit_dup s2.jm logger next.name job hn hmem
  have hres : (next.name ≠ "" ∧ s2.jm.reserved next.name = true) :=
    ⟨hn, by simp [jobManager.reserved, hmem]⟩
  refine ⟨e, ?_⟩
  simp only [step, e, if_pos hres, Bool.false_eq_true, if_false]

theorem namedRunning_reachable : Reachable 1 namedRunning :=
  ⟨[.submit none "a" 0, .loopHead 0], by decide⟩

theorem name_reserved_forever_after_panic_witness :
    Reachable 1 namedRunning
      ∧ namedRunning.workers[0]? = some (workerState.executing (namedJob.mk "a" 0 none))
      ∧ (namedJob.mk "a" 0 none).name ≠ ""
      ∧ ∃ s1, step namedRunning (.jobPanic 0) = some s1
        ∧ s1.jm.names = namedRunning.jm.names
        ∧ ∀ acts s2, run s1 acts = some s2 →
            (namedJob.mk "a" 0 none).name ∈ s2.jm.nameSet
              ∧ ∀ logger job,
                  Submit s2.jm logger (namedJob.mk "a" 0 none).name job = (s2.jm, false)
                    ∧ step s2 (.submit logger (namedJob.mk "a" 0 none).name job) = some s2 :=
  ⟨namedRunning_reachable, by decide, by decide,
    name_reserved_forever_after_panic 1 (by decide) (by decide) namedRunning
      namedRunning_reachable 0 (namedJob.mk "a" 0 none) (by decide) (by decide)⟩

end Certmagic
